import Mathlib

/-!
Shallow embedding of the chess-AI experiment harness:
`src/experiment/runner.py` (`ExperimentRunner.run_match`,
`ExperimentRunner.run_tournament`), `src/experiment/metrics.py`
(`MetricsAnalyzer.get_win_rates`), and the agent interface of
`src/chess_engine/base.py` (`ChessAI`).

The external rules engine (the python-chess `chess.Board`) is outside the
repository; it is modelled as an abstract `Engine` record of exactly the
operations the runner calls on it: `board.turn`, `board.is_game_over()`,
`board.is_checkmate()`, `board.is_stalemate()`,
`board.is_insufficient_material()`, `board.push(move)`, `board.fen()`.
Wall-clock measurement of a move is modelled by letting the agent's
`choose_move` return the elapsed time together with the move; an agent call
that raises is an explicit error value, and a move that `push` rejects is a
`push` returning `none` — both are caught by the single `try/except` in
`run_match`.
-/

namespace ChessExp

/-- Outcome of one `choose_move` call: either the call raises (`err`), or it
returns a move together with the wall-clock time the call took. -/
inductive AgentOutcome (μ : Type) where
  | err : AgentOutcome μ
  | move : μ → ℚ → AgentOutcome μ

/-- Abstract interface of the external rules engine (python-chess `Board`),
restricted to the operations `run_match` uses.  `push` returns `none` when the
move is rejected (python raises there); `init` is `chess.Board()`. -/
structure Engine (β μ : Type) where
  init : β
  turn : β → Bool
  is_game_over : β → Bool
  is_checkmate : β → Bool
  is_stalemate : β → Bool
  is_insufficient_material : β → Bool
  push : β → μ → Option β
  fen : β → String

/-- The agent capability of `src/chess_engine/base.py` (`ChessAI`): a `name`
and a `choose_move`.  (`train` is declared there but never called by the
runner, so it is not part of the embedding.) -/
structure Agent (β μ : Type) where
  name : String
  choose_move : β → AgentOutcome μ

/-- `GameResult` dataclass of `src/experiment/runner.py` (lines 10-19). -/
structure GameResult where
  white_ai : String
  black_ai : String
  winner : String
  moves : ℕ
  time_white : ℚ
  time_black : ℚ
  final_fen : String

/-- Local state of the `while` loop in `run_match`: the board plus the
`moves`, `time_white`, `time_black` counters. -/
structure MatchState (β : Type) where
  board : β
  moves : ℕ
  time_white : ℚ
  time_black : ℚ

/-- State at entry of the loop: fresh board, zero counters (runner.py lines
39-42). -/
def initState (e : Engine β μ) : MatchState β :=
  { board := e.init, moves := 0, time_white := 0, time_black := 0 }

/-- Result of the `while` loop: the state at exit together with the forfeit
winner when the loop was left through a `break` (`none` when the loop
condition itself failed, i.e. the position was game over).  `outOfFuel` marks
executions longer than the supplied fuel; any terminating run of the python
loop is `done` for every large enough fuel. -/
inductive LoopResult (β : Type) where
  | done : MatchState β → Option String → LoopResult β
  | outOfFuel : LoopResult β

/-- The expression `'black' if board.turn else 'white'`: the opponent of the
side to move, used both for forfeits and for the checkmate classification. -/
def opponentOfMover (e : Engine β μ) (b : β) : String :=
  if e.turn b then "black" else "white"

/-- The statements `if board.turn: time_white += elapsed else: time_black +=
elapsed` (runner.py lines 57-60): accumulate the elapsed time to the clock of
the side to move.  Board and move counter are untouched. -/
def accumTime (e : Engine β μ) (s : MatchState β) (elapsed : ℚ) : MatchState β :=
  { s with
    time_white := if e.turn s.board then s.time_white + elapsed else s.time_white
    time_black := if e.turn s.board then s.time_black else s.time_black + elapsed }

/-- The `while not board.is_game_over()` loop of `run_match` (runner.py lines
44-68), with explicit fuel.  One iteration: the side to move is asked for a
move; a raise is a forfeit `break`; an over-time move is a forfeit `break`
with the move discarded and its time not accumulated; otherwise the elapsed
time is accumulated to the mover's clock and the move is pushed (a rejected
`push` is caught by the same `except` and is a forfeit `break`, after the time
was already accumulated), and `moves` is incremented. -/
def runMatchLoop (e : Engine β μ) (white_ai black_ai : Agent β μ) (time_limit : ℚ) :
    ℕ → MatchState β → LoopResult β
  | 0, _ => .outOfFuel
  | fuel + 1, s =>
    if e.is_game_over s.board then
      .done s none
    else
      match (if e.turn s.board then white_ai else black_ai).choose_move s.board with
      | .err => .done s (some (opponentOfMover e s.board))
      | .move m elapsed =>
        if time_limit < elapsed then
          .done s (some (opponentOfMover e s.board))
        else
          match e.push s.board m with
          | none => .done (accumTime e s elapsed) (some (opponentOfMover e s.board))
          | some b' =>
            runMatchLoop e white_ai black_ai time_limit fuel
              { accumTime e s elapsed with board := b', moves := s.moves + 1 }

/-- The terminal-state classification after the loop (runner.py lines 70-73):
`if board.is_checkmate(): winner = 'black' if board.turn else 'white'` then
`elif board.is_stalemate() or board.is_insufficient_material(): winner =
'draw'`.  It runs unconditionally, overwriting any forfeit winner when one of
its guards holds; when neither guard holds the loop's winner (possibly never
assigned) is kept. -/
def classifyWinner (e : Engine β μ) (b : β) (w : Option String) : Option String :=
  if e.is_checkmate b then some (opponentOfMover e b)
  else if e.is_stalemate b || e.is_insufficient_material b then some "draw"
  else w

/-- Result of `run_match`: a `GameResult`, or the `UnboundLocalError` python
raises when the loop ends with the local `winner` never assigned (a terminal
state that is neither checkmate, stalemate nor insufficient material, e.g.
fivefold repetition or the seventy-five-move rule), or out of fuel. -/
inductive MatchOutcome where
  | result : GameResult → MatchOutcome
  | unboundWinner : MatchOutcome
  | outOfFuel : MatchOutcome

/-- `ExperimentRunner.run_match` (runner.py lines 27-83). -/
def run_match (e : Engine β μ) (white_ai black_ai : Agent β μ)
    (time_limit : ℚ) (fuel : ℕ) : MatchOutcome :=
  match runMatchLoop e white_ai black_ai time_limit fuel (initState e) with
  | .outOfFuel => .outOfFuel
  | .done s w =>
    match classifyWinner e s.board w with
    | none => .unboundWinner
    | some winner =>
      .result
        { white_ai := white_ai.name
          black_ai := black_ai.name
          winner := winner
          moves := s.moves
          time_white := s.time_white
          time_black := s.time_black
          final_fen := e.fen s.board }

/-- Apply a list of moves in order, failing as soon as one is rejected. -/
def pushAll (e : Engine β μ) : β → List μ → Option β
  | b, [] => some b
  | b, m :: ms =>
    match e.push b m with
    | none => none
    | some b' => pushAll e b' ms

/-- The attempt that caused a forfeit at board `b`: the mover's `choose_move`
raised, or its move was over time, or `push` rejected it. -/
def forfeitingAttempt (e : Engine β μ) (white_ai black_ai : Agent β μ)
    (time_limit : ℚ) (b : β) : Prop :=
  match (if e.turn b then white_ai else black_ai).choose_move b with
  | .err => True
  | .move m elapsed => time_limit < elapsed ∨ e.push b m = none

/-- The `for _ in range(games_per_pair)` body for one pair (runner.py lines
102-108): `games_per_pair` repetitions of the game `a1`-white `a2`-black
immediately followed by the game `a2`-white `a1`-black. -/
def pairSchedule (a1 a2 : Agent β μ) : ℕ → List (Agent β μ × Agent β μ)
  | 0 => []
  | k + 1 => (a1, a2) :: (a2, a1) :: pairSchedule a1 a2 k

/-- The `for ai2 in ais[i+1:]` loop (runner.py line 101): `a1` paired with
each later agent in order. -/
def pairBlock (a1 : Agent β μ) : List (Agent β μ) → ℕ → List (Agent β μ × Agent β μ)
  | [], _ => []
  | a2 :: rest, k => pairSchedule a1 a2 k ++ pairBlock a1 rest k

/-- Iteration order of the nested loops of `run_tournament` (runner.py lines
100-108): the (white, black) assignments in the order the games are run. -/
def tournamentSchedule : List (Agent β μ) → ℕ → List (Agent β μ × Agent β μ)
  | [], _ => []
  | a :: rest, k => pairBlock a rest k ++ tournamentSchedule rest k

/-- Sequentially run the scheduled games, appending each result to the
accumulated `self.results` list (runner.py lines 104-107); a failing
`run_match` aborts the run (python would propagate the exception, producing no
return value). -/
def runScheduled (e : Engine β μ) (time_limit : ℚ) (fuel : ℕ) :
    List (Agent β μ × Agent β μ) → List GameResult → Option (List GameResult)
  | [], results => some results
  | (a1, a2) :: rest, results =>
    match run_match e a1 a2 time_limit fuel with
    | .result r => runScheduled e time_limit fuel rest (results ++ [r])
    | _ => none

/-- `ExperimentRunner.run_tournament` (runner.py lines 85-110).  `results` is
the `self.results` list the runner holds when the call starts (empty for a
fresh runner); the return value models `get_results_df()`, i.e. the full
`self.results` after the run.  No parameter validation is performed by the
source. -/
def run_tournament (e : Engine β μ) (ais : List (Agent β μ)) (games_per_pair : ℕ)
    (time_limit : ℚ) (fuel : ℕ) (results : List GameResult) :
    Option (List GameResult) :=
  runScheduled e time_limit fuel (tournamentSchedule ais games_per_pair) results

/-- `results_df[results_df['white_ai'] == ai_name]` (metrics.py line 22). -/
def white_games (rs : List GameResult) (ai_name : String) : List GameResult :=
  rs.filter (fun r => r.white_ai == ai_name)

/-- `results_df[results_df['black_ai'] == ai_name]` (metrics.py line 28). -/
def black_games (rs : List GameResult) (ai_name : String) : List GameResult :=
  rs.filter (fun r => r.black_ai == ai_name)

/-- `len(white_games[white_games['winner'] == 'white'])` (metrics.py line 23). -/
def white_wins (rs : List GameResult) (ai_name : String) : ℕ :=
  ((white_games rs ai_name).filter (fun r => r.winner == "white")).length

/-- `len(white_games[white_games['winner'] == 'black'])` (metrics.py line 24). -/
def white_losses (rs : List GameResult) (ai_name : String) : ℕ :=
  ((white_games rs ai_name).filter (fun r => r.winner == "black")).length

/-- `len(white_games[white_games['winner'] == 'draw'])` (metrics.py line 25). -/
def white_draws (rs : List GameResult) (ai_name : String) : ℕ :=
  ((white_games rs ai_name).filter (fun r => r.winner == "draw")).length

/-- `len(black_games[black_games['winner'] == 'black'])` (metrics.py line 29). -/
def black_wins (rs : List GameResult) (ai_name : String) : ℕ :=
  ((black_games rs ai_name).filter (fun r => r.winner == "black")).length

/-- `len(black_games[black_games['winner'] == 'white'])` (metrics.py line 30). -/
def black_losses (rs : List GameResult) (ai_name : String) : ℕ :=
  ((black_games rs ai_name).filter (fun r => r.winner == "white")).length

/-- `len(black_games[black_games['winner'] == 'draw'])` (metrics.py line 31). -/
def black_draws (rs : List GameResult) (ai_name : String) : ℕ :=
  ((black_games rs ai_name).filter (fun r => r.winner == "draw")).length

/-- `total_games = len(white_games) + len(black_games)` (metrics.py line 33). -/
def total_games (rs : List GameResult) (ai_name : String) : ℕ :=
  (white_games rs ai_name).length + (black_games rs ai_name).length

/-- `total_wins = white_wins + black_wins` (metrics.py line 34). -/
def total_wins (rs : List GameResult) (ai_name : String) : ℕ :=
  white_wins rs ai_name + black_wins rs ai_name

/-- `total_losses = white_losses + black_losses` (metrics.py line 35). -/
def total_losses (rs : List GameResult) (ai_name : String) : ℕ :=
  white_losses rs ai_name + black_losses rs ai_name

/-- `total_draws = white_draws + black_draws` (metrics.py line 36). -/
def total_draws (rs : List GameResult) (ai_name : String) : ℕ :=
  white_draws rs ai_name + black_draws rs ai_name

/-- `win_rate = (total_wins + 0.5 * total_draws) / total_games if total_games
> 0 else 0` (metrics.py line 38), over exact rationals. -/
def win_rate (rs : List GameResult) (ai_name : String) : ℚ :=
  if 0 < total_games rs ai_name then
    ((total_wins rs ai_name : ℚ) + (1 / 2) * (total_draws rs ai_name : ℚ)) /
      (total_games rs ai_name : ℚ)
  else 0

/-- Modelled from the spec's enumeration-order sentence (§4.2): pairs `(i, j)`
with `i` from first to last index and `j` from `i+1` to last index; for each
pair, `k` repetitions of the `A`-white game immediately followed by the
`B`-white game.  Stated with `enum` (index-element pairs) and `drop (i+1)`
(the elements at indices `i+1` and later). -/
def spec_schedule (l : List α) (k : ℕ) : List (α × α) :=
  l.enum.flatMap fun p =>
    (l.drop (p.1 + 1)).flatMap fun b =>
      (List.range k).flatMap fun _ => [(p.2, b), (b, p.2)]

/-! Concrete engines, agents and results used to exercise the embedding on
closed inputs. -/

/-- A one-position rules engine whose initial position is already checkmate,
with white to move (so the classifier reports black as the winner). -/
def mateEngine : Engine Unit Unit :=
  { init := ()
    turn := fun _ => true
    is_game_over := fun _ => true
    is_checkmate := fun _ => true
    is_stalemate := fun _ => false
    is_insufficient_material := fun _ => false
    push := fun _ _ => none
    fen := fun _ => "f" }

/-- A one-position rules engine whose initial position is terminal but neither
checkmate, stalemate nor insufficient material — the classification shape
python-chess reports for a game over by fivefold repetition or the
seventy-five-move rule. -/
def repetitionEngine : Engine Unit Unit :=
  { init := ()
    turn := fun _ => true
    is_game_over := fun _ => true
    is_checkmate := fun _ => false
    is_stalemate := fun _ => false
    is_insufficient_material := fun _ => false
    push := fun _ _ => none
    fen := fun _ => "f" }

/-- A rules engine with a single non-terminal position where black is to
move. -/
def openBlackEngine : Engine Unit Unit :=
  { init := ()
    turn := fun _ => false
    is_game_over := fun _ => false
    is_checkmate := fun _ => false
    is_stalemate := fun _ => false
    is_insufficient_material := fun _ => false
    push := fun _ _ => none
    fen := fun _ => "f" }

/-- An agent named "A" whose `choose_move` always raises. -/
def agA : Agent Unit Unit := { name := "A", choose_move := fun _ => AgentOutcome.err }

/-- An agent named "B" whose `choose_move` always raises. -/
def agB : Agent Unit Unit := { name := "B", choose_move := fun _ => AgentOutcome.err }

/-- The result `run_match mateEngine agA agB` computes. -/
def resAB : GameResult :=
  { white_ai := "A", black_ai := "B", winner := "black", moves := 0,
    time_white := 0, time_black := 0, final_fen := "f" }

/-- The result `run_match mateEngine agB agA` computes. -/
def resBA : GameResult :=
  { white_ai := "B", black_ai := "A", winner := "black", moves := 0,
    time_white := 0, time_black := 0, final_fen := "f" }

/-- A hand-written result in which "A" beat "B" as white in 3 moves. -/
def resW : GameResult :=
  { white_ai := "A", black_ai := "B", winner := "white", moves := 3,
    time_white := 0, time_black := 0, final_fen := "f" }

/-! Lemmas about the match loop. -/

/-- A terminating loop run exits either through the loop condition (no forfeit
winner, position game over) or through a `break` (forfeit winner recorded for
the opponent of the side to move, position not game over). -/
theorem runMatchLoop_done_cases (e : Engine β μ) (a1 a2 : Agent β μ) (tl : ℚ) :
    ∀ (fuel : ℕ) (s0 s : MatchState β) (w : Option String),
      runMatchLoop e a1 a2 tl fuel s0 = .done s w →
      (w = none ∧ e.is_game_over s.board = true) ∨
        (w = some (opponentOfMover e s.board) ∧ e.is_game_over s.board = false) := by
  intro fuel
  induction fuel with
  | zero => intro s0 s w h; simp [runMatchLoop] at h
  | succ n ih =>
    intro s0 s w h
    rw [runMatchLoop] at h
    split at h
    next hov =>
      injection h with h1 h2
      subst h1; subst h2
      exact Or.inl ⟨rfl, hov⟩
    next hov =>
      rw [Bool.not_eq_true] at hov
      split at h
      next hc =>
        injection h with h1 h2
        subst h1; subst h2
        exact Or.inr ⟨rfl, hov⟩
      next m t hc =>
        split at h
        next ht =>
          injection h with h1 h2
          subst h1; subst h2
          exact Or.inr ⟨rfl, hov⟩
        next ht =>
          split at h
          next hp =>
            injection h with h1 h2
            subst h1; subst h2
            exact Or.inr ⟨rfl, hov⟩
          next b' hp =>
            exact ih _ _ _ h

/-- Trace of a terminating loop run: the final board is the initial board with
exactly `moves`-many successfully pushed moves applied, and when the exit was
a forfeit `break` the attempt at the final board fails (raise, over-time move
or rejected push). -/
theorem runMatchLoop_done_trace (e : Engine β μ) (a1 a2 : Agent β μ) (tl : ℚ) :
    ∀ (fuel : ℕ) (s0 s : MatchState β) (w : Option String),
      runMatchLoop e a1 a2 tl fuel s0 = .done s w →
      ∃ ms : List μ, pushAll e s0.board ms = some s.board ∧
        s.moves = s0.moves + ms.length ∧
        (w ≠ none → forfeitingAttempt e a1 a2 tl s.board) := by
  intro fuel
  induction fuel with
  | zero => intro s0 s w h; simp [runMatchLoop] at h
  | succ n ih =>
    intro s0 s w h
    rw [runMatchLoop] at h
    split at h
    next hov =>
      injection h with h1 h2
      subst h1; subst h2
      exact ⟨[], rfl, by simp, by simp⟩
    next hov =>
      split at h
      next hc =>
        injection h with h1 h2
        subst h1; subst h2
        refine ⟨[], rfl, by simp, fun _ => ?_⟩
        rw [forfeitingAttempt, hc]
        trivial
      next m t hc =>
        split at h
        next ht =>
          injection h with h1 h2
          subst h1; subst h2
          refine ⟨[], rfl, by simp, fun _ => ?_⟩
          rw [forfeitingAttempt, hc]
          exact Or.inl ht
        next ht =>
          split at h
          next hp =>
            injection h with h1 h2
            subst h1; subst h2
            refine ⟨[], rfl, by simp [accumTime], fun _ => ?_⟩
            have hb : (accumTime e s0 t).board = s0.board := rfl
            rw [forfeitingAttempt, hb, hc]
            exact Or.inr hp
          next b' hp =>
            obtain ⟨ms, hms, hlen, hff⟩ := ih _ _ _ h
            refine ⟨m :: ms, ?_, ?_, hff⟩
            · rw [pushAll, hp]
              exact hms
            · simpa [Nat.add_comm, Nat.add_assoc, Nat.add_left_comm] using hlen

/-- Every forfeit winner the loop can record is `"white"` or `"black"`, and
every winner `classifyWinner` can add is one of `"white"`, `"black"`,
`"draw"`. -/
theorem classifyWinner_values (e : Engine β μ) (b : β) (w : Option String)
    (hw : ∀ x, w = some x → x = "white" ∨ x = "black" ∨ x = "draw") :
    ∀ x, classifyWinner e b w = some x → x = "white" ∨ x = "black" ∨ x = "draw" := by
  intro x hx
  rw [classifyWinner] at hx
  by_cases hcm : e.is_checkmate b = true
  · rw [if_pos hcm] at hx
    injection hx with hx
    subst hx
    rw [opponentOfMover]
    by_cases ht : e.turn b = true
    · rw [if_pos ht]; exact Or.inr (Or.inl rfl)
    · rw [if_neg ht]; exact Or.inl rfl
  · rw [if_neg hcm] at hx
    by_cases hsd : (e.is_stalemate b || e.is_insufficient_material b) = true
    · rw [if_pos hsd] at hx
      injection hx with hx
      exact Or.inr (Or.inr hx.symm)
    · rw [if_neg hsd] at hx
      exact hw x hx

/-- The `GameResult` built by `run_match` names white before black, with the
agents' own names (runner.py lines 76-77). -/
theorem run_match_result_names (e : Engine β μ) (a1 a2 : Agent β μ) (tl : ℚ)
    (fuel : ℕ) (r : GameResult) :
    run_match e a1 a2 tl fuel = .result r →
    r.white_ai = a1.name ∧ r.black_ai = a2.name := by
  intro h
  rw [run_match] at h
  split at h
  · cases h
  · split at h
    · cases h
    · injection h with h1
      subst h1
      exact ⟨rfl, rfl⟩

/-! Lemmas about the tournament schedule. -/

theorem pairSchedule_length (a1 a2 : Agent β μ) :
    ∀ k, (pairSchedule a1 a2 k).length = 2 * k := by
  intro k
  induction k with
  | zero => rfl
  | succ n ih => simp [pairSchedule, ih]; omega

theorem pairBlock_length (a1 : Agent β μ) :
    ∀ (l : List (Agent β μ)) (k : ℕ),
      (pairBlock a1 l k).length = l.length * (2 * k) := by
  intro l
  induction l with
  | nil => intro k; simp [pairBlock]
  | cons a2 rest ih =>
    intro k
    simp only [pairBlock, List.length_append, pairSchedule_length, ih,
      List.length_cons, Nat.succ_mul]
    omega

theorem tournamentSchedule_length :
    ∀ (l : List (Agent β μ)) (k : ℕ),
      (tournamentSchedule l k).length = l.length * (l.length - 1) * k := by
  intro l
  induction l with
  | nil => intro k; simp [tournamentSchedule]
  | cons a rest ih =>
    intro k
    simp only [tournamentSchedule, List.length_append, pairBlock_length, ih,
      List.length_cons]
    generalize rest.length = n
    cases n with
    | zero => simp
    | succ m => simp only [Nat.succ_sub_one]; ring

theorem mem_pairSchedule (a1 a2 : Agent β μ) :
    ∀ (k : ℕ) (p : Agent β μ × Agent β μ), p ∈ pairSchedule a1 a2 k →
      p = (a1, a2) ∨ p = (a2, a1) := by
  intro k
  induction k with
  | zero => intro p hp; cases hp
  | succ n ih =>
    intro p hp
    rcases hp with _ | ⟨_, hp⟩
    · exact Or.inl rfl
    · rcases hp with _ | ⟨_, hp⟩
      · exact Or.inr rfl
      · exact ih p hp

theorem mem_pairBlock (a1 : Agent β μ) :
    ∀ (l : List (Agent β μ)) (k : ℕ) (p : Agent β μ × Agent β μ),
      p ∈ pairBlock a1 l k →
      ∃ a2 ∈ l, p = (a1, a2) ∨ p = (a2, a1) := by
  intro l
  induction l with
  | nil => intro k p hp; cases hp
  | cons a2 rest ih =>
    intro k p hp
    rcases List.mem_append.mp hp with hp | hp
    · exact ⟨a2, List.mem_cons_self a2 rest, mem_pairSchedule a1 a2 k p hp⟩
    · obtain ⟨a3, ha3, hor⟩ := ih k p hp
      exact ⟨a3, List.mem_cons_of_mem a2 ha3, hor⟩

theorem mem_tournamentSchedule :
    ∀ (l : List (Agent β μ)) (k : ℕ) (p : Agent β μ × Agent β μ),
      p ∈ tournamentSchedule l k → p.1 ∈ l ∧ p.2 ∈ l := by
  intro l
  induction l with
  | nil => intro k p hp; cases hp
  | cons a rest ih =>
    intro k p hp
    rcases List.mem_append.mp hp with hp | hp
    · obtain ⟨a2, ha2, hor⟩ := mem_pairBlock a rest k p hp
      rcases hor with rfl | rfl
      · exact ⟨List.mem_cons_self a rest, List.mem_cons_of_mem a ha2⟩
      · exact ⟨List.mem_cons_of_mem a ha2, List.mem_cons_self a rest⟩
    · obtain ⟨h1, h2⟩ := ih k p hp
      exact ⟨List.mem_cons_of_mem a h1, List.mem_cons_of_mem a h2⟩

/-! Lemmas about `runScheduled`. -/

/-- Running a schedule on an accumulated results list produces the accumulated
list followed by exactly what the same schedule produces from an empty list. -/
theorem runScheduled_append (e : Engine β μ) (tl : ℚ) (fuel : ℕ) :
    ∀ (sched : List (Agent β μ × Agent β μ)) (acc : List GameResult),
      runScheduled e tl fuel sched acc =
        (runScheduled e tl fuel sched []).map (acc ++ ·) := by
  intro sched
  induction sched with
  | nil => intro acc; simp [runScheduled]
  | cons p rest ih =>
    intro acc
    obtain ⟨a1, a2⟩ := p
    cases hm : run_match e a1 a2 tl fuel with
    | result r =>
      simp only [runScheduled, hm]
      rw [ih (acc ++ [r]), ih ([] ++ [r])]
      cases runScheduled e tl fuel rest [] with
      | none => rfl
      | some g => simp
    | unboundWinner => simp [runScheduled, hm]
    | outOfFuel => simp [runScheduled, hm]

/-- A successful run of a schedule from an empty accumulator yields one
`GameResult` per scheduled game, in schedule order, each produced by
`run_match` on the scheduled (white, black) assignment. -/
theorem runScheduled_forall₂ (e : Engine β μ) (tl : ℚ) (fuel : ℕ) :
    ∀ (sched : List (Agent β μ × Agent β μ)) (games : List GameResult),
      runScheduled e tl fuel sched [] = some games →
      List.Forall₂ (fun p r => run_match e p.1 p.2 tl fuel = .result r) sched games := by
  intro sched
  induction sched with
  | nil =>
    intro games h
    rw [runScheduled] at h
    injection h with h
    subst h
    exact List.Forall₂.nil
  | cons p rest ih =>
    intro games h
    obtain ⟨a1, a2⟩ := p
    cases hm : run_match e a1 a2 tl fuel with
    | result r =>
      simp only [runScheduled, hm] at h
      rw [runScheduled_append] at h
      cases hg : runScheduled e tl fuel rest [] with
      | none => rw [hg] at h; cases h
      | some g =>
        rw [hg] at h
        injection h with h
        subst h
        exact List.Forall₂.cons hm (ih g hg)
    | unboundWinner => simp [runScheduled, hm] at h
    | outOfFuel => simp [runScheduled, hm] at h

/-! Counting lemmas for the schedule. -/

theorem countP_pairSchedule (a1 a2 : Agent β μ) (A B : String) :
    ∀ k, (pairSchedule a1 a2 k).countP (fun p => p.1.name == A && p.2.name == B) =
      k * ((if a1.name = A ∧ a2.name = B then 1 else 0) +
           (if a2.name = A ∧ a1.name = B then 1 else 0)) := by
  intro k
  induction k with
  | zero => simp [pairSchedule]
  | succ n ih =>
    simp only [pairSchedule, List.countP_cons, ih, Bool.and_eq_true, beq_iff_eq]
    split_ifs <;> omega

theorem countP_name_nodup (b : Agent β μ) :
    ∀ l : List (Agent β μ), (l.map Agent.name).Nodup → b ∈ l →
      l.countP (fun y => y.name == b.name) = 1 := by
  intro l
  induction l with
  | nil => intro _ hb; cases hb
  | cons x rest ih =>
    intro hnd hb
    rw [List.map_cons, List.nodup_cons] at hnd
    obtain ⟨hx, hnd'⟩ := hnd
    rcases List.mem_cons.mp hb with rfl | hb
    · have hz : rest.countP (fun y => y.name == b.name) = 0 := by
        rw [List.countP_eq_zero]
        intro y hy hyb
        rw [beq_iff_eq] at hyb
        exact hx (hyb ▸ List.mem_map_of_mem Agent.name hy)
      simp [List.countP_cons, hz]
    · have hxb : (x.name == b.name) = false := by
        rw [beq_eq_false_iff_ne]
        intro hxb
        exact hx (hxb ▸ List.mem_map_of_mem Agent.name hb)
      simp [List.countP_cons, hxb, ih hnd' hb]

theorem countP_name_not_mem (nm : String) :
    ∀ l : List (Agent β μ), nm ∉ l.map Agent.name →
      l.countP (fun y => y.name == nm) = 0 := by
  intro l hl
  rw [List.countP_eq_zero]
  intro y hy hyb
  rw [beq_iff_eq] at hyb
  exact hl (hyb ▸ List.mem_map_of_mem Agent.name hy)

theorem countP_pairBlock_left (a1 : Agent β μ) (A B : String)
    (hA : a1.name = A) (hAB : A ≠ B) :
    ∀ (l : List (Agent β μ)) (k : ℕ),
      (pairBlock a1 l k).countP (fun p => p.1.name == A && p.2.name == B) =
        k * l.countP (fun y => y.name == B) := by
  intro l
  induction l with
  | nil => intro k; simp [pairBlock]
  | cons a2 rest ih =>
    intro k
    have h1 : ¬ (a2.name = A ∧ A = B) := fun h => hAB h.2
    simp only [pairBlock, List.countP_append, countP_pairSchedule, ih,
      List.countP_cons, beq_iff_eq, hA, h1, if_false, eq_self_iff_true, true_and,
      add_zero]
    split_ifs <;> ring

theorem countP_pairBlock_right (a1 : Agent β μ) (A B : String)
    (hB : a1.name = B) (hAB : A ≠ B) :
    ∀ (l : List (Agent β μ)) (k : ℕ),
      (pairBlock a1 l k).countP (fun p => p.1.name == A && p.2.name == B) =
        k * l.countP (fun y => y.name == A) := by
  intro l
  induction l with
  | nil => intro k; simp [pairBlock]
  | cons a2 rest ih =>
    intro k
    have h1 : ¬ (B = A ∧ a2.name = B) := fun h => hAB h.1.symm
    simp only [pairBlock, List.countP_append, countP_pairSchedule, ih,
      List.countP_cons, beq_iff_eq, hB, h1, if_false, eq_self_iff_true, and_true,
      zero_add]
    split_ifs <;> ring

theorem countP_pairBlock_other (a1 : Agent β μ) (A B : String)
    (hA : a1.name ≠ A) (hB : a1.name ≠ B) :
    ∀ (l : List (Agent β μ)) (k : ℕ),
      (pairBlock a1 l k).countP (fun p => p.1.name == A && p.2.name == B) = 0 := by
  intro l k
  rw [List.countP_eq_zero]
  intro p hp hpred
  rw [Bool.and_eq_true, beq_iff_eq, beq_iff_eq] at hpred
  obtain ⟨a2, -, hor⟩ := mem_pairBlock a1 l k p hp
  rcases hor with rfl | rfl
  · exact hA hpred.1
  · exact hB hpred.2

/-- In the full round-robin schedule over agents with pairwise distinct names,
each ordered (white, black) name assignment of two distinct participating
agents occurs exactly `games_per_pair` times. -/
theorem countP_tournamentSchedule :
    ∀ (l : List (Agent β μ)) (k : ℕ) (a b : Agent β μ),
      (l.map Agent.name).Nodup → a ∈ l → b ∈ l → a.name ≠ b.name →
      (tournamentSchedule l k).countP
        (fun p => p.1.name == a.name && p.2.name == b.name) = k := by
  intro l
  induction l with
  | nil => intro k a b _ ha; cases ha
  | cons x rest ih =>
    intro k a b hnd ha hb hab
    rw [List.map_cons, List.nodup_cons] at hnd
    obtain ⟨hx, hnd'⟩ := hnd
    rw [tournamentSchedule, List.countP_append]
    by_cases hxa : x.name = a.name
    · have hbx : b ∈ rest := by
        rcases List.mem_cons.mp hb with rfl | hb'
        · exact absurd (hxa.symm) hab
        · exact hb'
      have hz : (tournamentSchedule rest k).countP
          (fun p => p.1.name == a.name && p.2.name == b.name) = 0 := by
        rw [List.countP_eq_zero]
        intro p hp hpred
        rw [Bool.and_eq_true, beq_iff_eq, beq_iff_eq] at hpred
        have h1 := (mem_tournamentSchedule rest k p hp).1
        exact hx (by rw [hxa, ← hpred.1]; exact List.mem_map_of_mem Agent.name h1)
      rw [countP_pairBlock_left x a.name b.name hxa hab rest k,
        countP_name_nodup b rest hnd' hbx, hz]
      omega
    · by_cases hxb : x.name = b.name
      · have hax : a ∈ rest := by
          rcases List.mem_cons.mp ha with rfl | ha'
          · exact absurd rfl hxa
          · exact ha'
        have hz : (tournamentSchedule rest k).countP
            (fun p => p.1.name == a.name && p.2.name == b.name) = 0 := by
          rw [List.countP_eq_zero]
          intro p hp hpred
          rw [Bool.and_eq_true, beq_iff_eq, beq_iff_eq] at hpred
          have h2 := (mem_tournamentSchedule rest k p hp).2
          exact hx (by rw [hxb, ← hpred.2]; exact List.mem_map_of_mem Agent.name h2)
        rw [countP_pairBlock_right x a.name b.name hxb hab rest k,
          countP_name_nodup a rest hnd' hax, hz]
        omega
      · have hax : a ∈ rest := by
          rcases List.mem_cons.mp ha with rfl | ha'
          · exact absurd rfl hxa
          · exact ha'
        have hbx : b ∈ rest := by
          rcases List.mem_cons.mp hb with rfl | hb'
          · exact absurd rfl hxb
          · exact hb'
        rw [countP_pairBlock_other x a.name b.name hxa hxb rest k,
          ih k a b hnd' hax hbx hab]
        omega

/-! Equivalence of the source's loop-nest enumeration with the spec's
index-based enumeration. -/

theorem pairSchedule_append_block (a b : Agent β μ) :
    ∀ n, pairSchedule a b n ++ [(a, b), (b, a)] = pairSchedule a b (n + 1) := by
  intro n
  induction n with
  | zero => rfl
  | succ m ih =>
    rw [pairSchedule, List.cons_append, List.cons_append, ih]
    rfl

theorem range_flatMap_pairSchedule (a b : Agent β μ) :
    ∀ k, (List.range k).flatMap (fun _ => [(a, b), (b, a)]) = pairSchedule a b k := by
  intro k
  induction k with
  | zero => rfl
  | succ n ih =>
    rw [List.range_succ, List.flatMap_append, ih, List.flatMap_cons,
      List.flatMap_nil, List.append_nil, pairSchedule_append_block]

theorem flatMap_pairSchedule_eq_pairBlock (x : Agent β μ) :
    ∀ (l : List (Agent β μ)) (k : ℕ),
      l.flatMap (fun b => pairSchedule x b k) = pairBlock x l k := by
  intro l
  induction l with
  | nil => intro k; rfl
  | cons a2 rest ih =>
    intro k
    rw [List.flatMap_cons, ih, pairBlock]

theorem enumFrom_flatMap_eq_tournamentSchedule (k : ℕ) :
    ∀ (rest : List (Agent β μ)) (m : ℕ) (full : List (Agent β μ)),
      full.drop (m + 1) = rest →
      (List.enumFrom (m + 1) rest).flatMap
          (fun p => (full.drop (p.1 + 1)).flatMap fun b => pairSchedule p.2 b k) =
        tournamentSchedule rest k := by
  intro rest
  induction rest with
  | nil => intro m full _; rfl
  | cons y rest' ih =>
    intro m full h
    have hd : full.drop (m + 1 + 1) = rest' := by
      have h2 : List.drop 1 (List.drop (m + 1) full) = List.drop (m + 1 + 1) full :=
        List.drop_drop 1 (m + 1) full
      rw [← h2, h]
      rfl
    rw [List.enumFrom_cons, List.flatMap_cons, hd,
      flatMap_pairSchedule_eq_pairBlock, ih (m + 1) full hd, tournamentSchedule]

/-- The loop-nest enumeration of `run_tournament` is exactly the spec's
index-based enumeration order. -/
theorem tournamentSchedule_eq_spec_schedule :
    ∀ (l : List (Agent β μ)) (k : ℕ), tournamentSchedule l k = spec_schedule l k := by
  intro l k
  have hinner :
      spec_schedule l k =
        l.enum.flatMap
          (fun p => (l.drop (p.1 + 1)).flatMap fun b => pairSchedule p.2 b k) := by
    rw [spec_schedule]
    simp only [range_flatMap_pairSchedule]
  rw [hinner]
  cases l with
  | nil => rfl
  | cons x rest =>
    have henum : (x :: rest).enum = (0, x) :: List.enumFrom 1 rest := rfl
    rw [henum, List.flatMap_cons]
    have hdrop : (x :: rest).drop (0 + 1) = rest := rfl
    rw [hdrop, flatMap_pairSchedule_eq_pairBlock,
      enumFrom_flatMap_eq_tournamentSchedule k rest 0 (x :: rest) rfl,
      tournamentSchedule]

/-! Counting on the result log. -/

theorem countP_eq_of_forall₂ {α γ : Type} {R : α → γ → Prop} {p : α → Bool}
    {q : γ → Bool} (hpq : ∀ a c, R a c → p a = q c) :
    ∀ {l₁ : List α} {l₂ : List γ}, List.Forall₂ R l₁ l₂ →
      l₁.countP p = l₂.countP q := by
  intro l₁ l₂ h
  induction h with
  | nil => rfl
  | cons hr _ ih => rw [List.countP_cons, List.countP_cons, ih, hpq _ _ hr]

theorem countP_or_disjoint (p q : α → Bool) :
    ∀ l : List α, (∀ a ∈ l, ¬(p a = true ∧ q a = true)) →
      l.countP (fun a => p a || q a) = l.countP p + l.countP q := by
  intro l
  induction l with
  | nil => intro _; rfl
  | cons a rest ih =>
    intro h
    have ha := h a (List.mem_cons_self a rest)
    have hrest := fun x hx => h x (List.mem_cons_of_mem a hx)
    rw [List.countP_cons, List.countP_cons, List.countP_cons, ih hrest]
    cases hp : p a <;> cases hq : q a <;> simp_all <;> omega

/-! Lemmas for the metrics aggregator. -/

/-- When every winner field is one of the three legal values, the three
winner-filters of a list partition it. -/
theorem filter_winner_partition :
    ∀ l : List GameResult,
      (∀ r ∈ l, r.winner = "white" ∨ r.winner = "black" ∨ r.winner = "draw") →
      (l.filter (fun r => r.winner == "white")).length +
        (l.filter (fun r => r.winner == "black")).length +
        (l.filter (fun r => r.winner == "draw")).length = l.length := by
  intro l
  induction l with
  | nil => intro _; rfl
  | cons r rest ih =>
    intro h
    have hr := h r (List.mem_cons_self r rest)
    have hrest := fun x hx => h x (List.mem_cons_of_mem r hx)
    have b1 : (("white" : String) == "black") = false := rfl
    have b2 : (("white" : String) == "draw") = false := rfl
    have b3 : (("black" : String) == "white") = false := rfl
    have b4 : (("black" : String) == "draw") = false := rfl
    have b5 : (("draw" : String) == "white") = false := rfl
    have b6 : (("draw" : String) == "black") = false := rfl
    rcases hr with hw | hw | hw <;>
      simp only [List.filter_cons, hw, beq_self_eq_true, b1, b2, b3, b4, b5, b6,
        Bool.false_eq_true, eq_self_iff_true, if_true, if_false,
        List.length_cons, ← ih hrest] <;>
      omega

/-- Wins, losses and draws of an agent partition its games, provided every
winner field is legal. -/
theorem total_partition (rs : List GameResult) (ai_name : String)
    (hval : ∀ r ∈ rs, r.winner = "white" ∨ r.winner = "black" ∨ r.winner = "draw") :
    total_wins rs ai_name + total_losses rs ai_name + total_draws rs ai_name =
      total_games rs ai_name := by
  have hw := filter_winner_partition (white_games rs ai_name)
    (fun r hr => hval r (List.mem_filter.mp hr).1)
  have hb := filter_winner_partition (black_games rs ai_name)
    (fun r hr => hval r (List.mem_filter.mp hr).1)
  rw [total_wins, total_losses, total_draws, total_games,
    white_wins, white_losses, white_draws, black_wins, black_losses, black_draws]
  omega

theorem total_games_pos (rs : List GameResult) (ai_name : String)
    (happ : ∃ r ∈ rs, r.white_ai = ai_name ∨ r.black_ai = ai_name) :
    0 < total_games rs ai_name := by
  obtain ⟨r, hr, hor⟩ := happ
  rw [total_games]
  rcases hor with h | h
  · have : r ∈ white_games rs ai_name :=
      List.mem_filter.mpr ⟨hr, by rw [beq_iff_eq]; exact h⟩
    have := List.length_pos.mpr (List.ne_nil_of_mem this)
    omega
  · have : r ∈ black_games rs ai_name :=
      List.mem_filter.mpr ⟨hr, by rw [beq_iff_eq]; exact h⟩
    have := List.length_pos.mpr (List.ne_nil_of_mem this)
    omega

theorem tournamentSchedule_zero :
    ∀ l : List (Agent β μ), tournamentSchedule l 0 = [] := by
  intro l
  induction l with
  | nil => rfl
  | cons x rest ih =>
    have hb : ∀ t : List (Agent β μ), pairBlock x t 0 = [] := by
      intro t
      induction t with
      | nil => rfl
      | cons y r ihr => rw [pairBlock, ihr]; rfl
    rw [tournamentSchedule, hb, ih]
    rfl

/-! Claim theorems. -/

/-- C1 (counterexample): on a terminal position that is neither checkmate,
stalemate nor insufficient material (e.g. a game over by fivefold repetition
or the seventy-five-move rule), `run_match` does not return normally with a
winner set: the local `winner` is never assigned, and the `GameResult`
construction fails (`UnboundLocalError` in python).  This refutes the claim
that for every terminal position the rules engine can report, `run_match`
returns normally with a winner in {white, black, draw}. -/
theorem c1_counterexample :
    run_match repetitionEngine agA agB 1 1 = MatchOutcome.unboundWinner := rfl

/-- C1 (amended): whenever `run_match` does produce a `GameResult` — i.e. the
game ended by forfeit, checkmate, stalemate or insufficient material — it
produces exactly one, and its winner field is one of "white", "black",
"draw"; for any other terminal condition (repetition, move-count limits) no
winner is assigned and `run_match` fails without producing a result. -/
theorem c1_winner_trichotomy (e : Engine β μ) (a1 a2 : Agent β μ) (tl : ℚ)
    (fuel : ℕ) (r : GameResult) (h : run_match e a1 a2 tl fuel = .result r) :
    r.winner = "white" ∨ r.winner = "black" ∨ r.winner = "draw" := by
  rw [run_match] at h
  split at h
  next heq => cases h
  next s w heq =>
    have hw : ∀ x, w = some x → x = "white" ∨ x = "black" ∨ x = "draw" := by
      intro x hx
      rcases runMatchLoop_done_cases e a1 a2 tl fuel (initState e) s w heq with
        ⟨rfl, -⟩ | ⟨rfl, -⟩
      · cases hx
      · injection hx with hx
        rw [← hx, opponentOfMover]
        by_cases ht : e.turn s.board = true
        · rw [if_pos ht]; exact Or.inr (Or.inl rfl)
        · rw [if_neg ht]; exact Or.inl rfl
    cases hcl : classifyWinner e s.board w with
    | none => rw [hcl] at h; cases h
    | some winner =>
      rw [hcl] at h
      injection h with h
      rw [← h]
      exact classifyWinner_values e s.board w hw winner hcl

/-- C1 (witness): a concrete checkmate game produces a result, and the
theorem applies to it. -/
theorem c1_witness :
    resAB.winner = "white" ∨ resAB.winner = "black" ∨ resAB.winner = "draw" :=
  c1_winner_trichotomy mateEngine agA agB 1 1 resAB rfl

/-- C2 (counterexample): on an invalid configuration — a single agent, i.e.
fewer than 2 — `run_tournament` does not fail with an error before any game
is run: it returns normally with the results list unchanged.  No
configuration validation exists in the source. -/
theorem c2_counterexample :
    run_tournament mateEngine [agA] 1 1 1 [] = some [] := rfl

/-- C2 (amended): `run_tournament` performs no configuration validation.
With fewer than 2 agents or a repetition count of 0 it silently runs zero
games and returns the accumulated results list unchanged — it neither raises
a configuration error nor runs any game; a non-positive time limit is likewise
accepted (every timed move then forfeits). -/
theorem c2_no_validation (e : Engine β μ) (ais : List (Agent β μ))
    (games_per_pair : ℕ) (tl : ℚ) (fuel : ℕ) (results : List GameResult)
    (h : ais.length < 2 ∨ games_per_pair = 0) :
    run_tournament e ais games_per_pair tl fuel results = some results := by
  have hs : tournamentSchedule ais games_per_pair = [] := by
    rcases h with h | rfl
    · cases ais with
      | nil => rfl
      | cons a t =>
        cases t with
        | nil => rfl
        | cons b t' =>
          exact absurd h (by rw [List.length_cons, List.length_cons]; omega)
    · exact tournamentSchedule_zero ais
  rw [run_tournament, hs]
  rfl

/-- C2 (witness): the amended theorem applied to a concrete one-agent
configuration with a nonempty accumulated results list. -/
theorem c2_witness :
    run_tournament mateEngine [agA] 1 1 1 [resW] = some [resW] :=
  c2_no_validation mateEngine [agA] 1 1 1 [resW] (Or.inl (by decide))

/-- C3: for N ≥ 2 agents with pairwise distinct names and repetition count
k ≥ 1, a tournament on a fresh runner (empty results list) that returns a log
has exactly N·(N-1)·k entries; every unordered pair of distinct participating
agents appears in exactly k entries with the first as white, k entries with
the second as white, and hence 2k entries in total. -/
theorem c3_round_robin (e : Engine β μ) (ais : List (Agent β μ))
    (games_per_pair : ℕ) (tl : ℚ) (fuel : ℕ) (log : List GameResult)
    (hN : 2 ≤ ais.length) (hk : 1 ≤ games_per_pair)
    (hnd : (ais.map Agent.name).Nodup)
    (hrun : run_tournament e ais games_per_pair tl fuel [] = some log) :
    log.length = ais.length * (ais.length - 1) * games_per_pair ∧
    ∀ a b : Agent β μ, a ∈ ais → b ∈ ais → a.name ≠ b.name →
      log.countP (fun r => r.white_ai == a.name && r.black_ai == b.name) =
        games_per_pair ∧
      log.countP (fun r => r.white_ai == b.name && r.black_ai == a.name) =
        games_per_pair ∧
      log.countP (fun r => (r.white_ai == a.name && r.black_ai == b.name) ||
          (r.white_ai == b.name && r.black_ai == a.name)) =
        2 * games_per_pair := by
  rw [run_tournament] at hrun
  have hf := runScheduled_forall₂ e tl fuel _ log hrun
  constructor
  · rw [← hf.length_eq, tournamentSchedule_length]
  · intro a b ha hb hab
    have htr1 : (tournamentSchedule ais games_per_pair).countP
          (fun p => p.1.name == a.name && p.2.name == b.name) =
        log.countP (fun r => r.white_ai == a.name && r.black_ai == b.name) :=
      countP_eq_of_forall₂
        (fun p r hr => by
          obtain ⟨h1, h2⟩ := run_match_result_names e p.1 p.2 tl fuel r hr
          rw [h1, h2]) hf
    have htr2 : (tournamentSchedule ais games_per_pair).countP
          (fun p => p.1.name == b.name && p.2.name == a.name) =
        log.countP (fun r => r.white_ai == b.name && r.black_ai == a.name) :=
      countP_eq_of_forall₂
        (fun p r hr => by
          obtain ⟨h1, h2⟩ := run_match_result_names e p.1 p.2 tl fuel r hr
          rw [h1, h2]) hf
    have hc1 := countP_tournamentSchedule ais games_per_pair a b hnd ha hb hab
    have hc2 := countP_tournamentSchedule ais games_per_pair b a hnd hb ha (Ne.symm hab)
    have hdis : ∀ x ∈ log,
        ¬((x.white_ai == a.name && x.black_ai == b.name) = true ∧
          (x.white_ai == b.name && x.black_ai == a.name) = true) := by
      rintro x - ⟨h1, h2⟩
      rw [Bool.and_eq_true, beq_iff_eq, beq_iff_eq] at h1 h2
      exact hab (h1.1 ▸ h2.1 ▸ rfl)
    refine ⟨htr1 ▸ hc1, htr2 ▸ hc2, ?_⟩
    rw [countP_or_disjoint _ _ log hdis, ← htr1, ← htr2, hc1, hc2]
    omega

/-- C3 (witness): a concrete two-agent tournament with one repetition,
checked against the theorem. -/
theorem c3_witness :
    ([resAB, resBA].length = [agA, agB].length * ([agA, agB].length - 1) * 1) ∧
    [resAB, resBA].countP
      (fun r => r.white_ai == agA.name && r.black_ai == agB.name) = 1 ∧
    [resAB, resBA].countP
      (fun r => r.white_ai == agB.name && r.black_ai == agA.name) = 1 ∧
    [resAB, resBA].countP
      (fun r => (r.white_ai == agA.name && r.black_ai == agB.name) ||
        (r.white_ai == agB.name && r.black_ai == agA.name)) = 2 * 1 := by
  have h := c3_round_robin mateEngine [agA, agB] 1 1 1 [resAB, resBA]
    (by decide) (by decide) (by decide) rfl
  have h3 := h.2 agA agB (List.mem_cons_self agA [agB])
    (List.mem_cons_of_mem agA (List.mem_cons_self agB [])) (by decide)
  exact ⟨h.1, h3.1, h3.2.1, h3.2.2⟩

/-- C4: whenever the game loop exits normally (no forfeit `break`), the winner
is classified from the final position: checkmate makes the color not on turn
the winner (white to move means black wins and vice versa); stalemate or
insufficient material makes the game a draw.  The hypothesis `hco` records the
rules-engine fact that a stalemate or insufficient-material position is not
also a checkmate. -/
theorem c4_terminal_classification (e : Engine β μ) (a1 a2 : Agent β μ)
    (tl : ℚ) (fuel : ℕ) (s : MatchState β)
    (hco : ∀ b, e.is_stalemate b = true ∨ e.is_insufficient_material b = true →
      e.is_checkmate b = false)
    (hdone : runMatchLoop e a1 a2 tl fuel (initState e) = .done s none) :
    (e.is_checkmate s.board = true →
      ∃ r, run_match e a1 a2 tl fuel = .result r ∧
        r.winner = (if e.turn s.board then "black" else "white")) ∧
    (e.is_stalemate s.board = true ∨ e.is_insufficient_material s.board = true →
      ∃ r, run_match e a1 a2 tl fuel = .result r ∧ r.winner = "draw") := by
  constructor
  · intro hcm
    have hcl : classifyWinner e s.board none = some (opponentOfMover e s.board) := by
      rw [classifyWinner, if_pos hcm]
    refine ⟨GameResult.mk a1.name a2.name (opponentOfMover e s.board) s.moves
      s.time_white s.time_black (e.fen s.board), ?_, rfl⟩
    simp only [run_match, hdone, hcl]
  · intro hsd
    have hcm : e.is_checkmate s.board = false := hco s.board hsd
    have hcl : classifyWinner e s.board none = some "draw" := by
      rcases hsd with h | h <;> simp [classifyWinner, hcm, h]
    refine ⟨GameResult.mk a1.name a2.name "draw" s.moves
      s.time_white s.time_black (e.fen s.board), ?_, rfl⟩
    simp only [run_match, hdone, hcl]

/-- C4 (witness): the theorem applied to a concrete game ending in checkmate
with white to move: black is the winner. -/
theorem c4_witness :
    ∃ r, run_match mateEngine agA agB 1 1 = MatchOutcome.result r ∧
      r.winner = (if mateEngine.turn (initState mateEngine).board
        then "black" else "white") :=
  (c4_terminal_classification mateEngine agA agB 1 1 (initState mateEngine)
    (fun _ h => by rcases h with h | h <;> exact Bool.noConfusion h) rfl).1 rfl

/-- C5: in every terminating run of the match loop, the final board is the
initial board with exactly `moves`-many successfully applied moves — so any
`GameResult` returned reports as `moves` precisely the number of moves applied
to the rules engine; and when the game ends in a forfeit, the forfeiting
attempt at the final board (a raise, an over-time move, or a rejected push) is
not counted and its move is not applied (the board equals the pushes of the
counted moves alone). -/
theorem c5_move_count (e : Engine β μ) (a1 a2 : Agent β μ) (tl : ℚ) (fuel : ℕ)
    (s : MatchState β) (w : Option String)
    (hdone : runMatchLoop e a1 a2 tl fuel (initState e) = .done s w) :
    (∃ ms : List μ, pushAll e e.init ms = some s.board ∧ s.moves = ms.length) ∧
    (w ≠ none → forfeitingAttempt e a1 a2 tl s.board) ∧
    (∀ r, run_match e a1 a2 tl fuel = .result r → r.moves = s.moves) := by
  obtain ⟨ms, h1, h2, h3⟩ :=
    runMatchLoop_done_trace e a1 a2 tl fuel (initState e) s w hdone
  refine ⟨⟨ms, h1, by simpa [initState] using h2⟩, h3, ?_⟩
  intro r hr
  simp only [run_match, hdone] at hr
  cases hcl : classifyWinner e s.board w with
  | none => rw [hcl] at hr; cases hr
  | some winner =>
    rw [hcl] at hr
    injection hr with hr
    rw [← hr]

/-- C5 (witness): the theorem applied to a concrete game over at once: zero
moves counted, empty push trace. -/
theorem c5_witness :
    (∃ ms : List Unit, pushAll mateEngine mateEngine.init ms =
        some (initState mateEngine).board ∧
      (initState mateEngine).moves = ms.length) ∧
    (run_match mateEngine agA agB 1 1 = MatchOutcome.result resAB →
      resAB.moves = (initState mateEngine).moves) :=
  ⟨(c5_move_count mateEngine agA agB 1 1 (initState mateEngine) none rfl).1,
    (c5_move_count mateEngine agA agB 1 1 (initState mateEngine) none rfl).2.2 resAB⟩

/-- C6: when the match loop exits through a forfeit `break`, the position at
that point is not game over (the loop guard had just passed), the recorded
winner is the color opposing the forfeiting mover, and — because a
non-terminal position is neither checkmate, stalemate nor insufficient
material (hypotheses `hcm`, `hsm`, `him` on the rules engine) — the post-loop
classification leaves that winner unchanged in the returned `GameResult`. -/
theorem c6_forfeit_winner (e : Engine β μ) (a1 a2 : Agent β μ) (tl : ℚ)
    (fuel : ℕ) (s : MatchState β) (win : String)
    (hcm : ∀ b, e.is_checkmate b = true → e.is_game_over b = true)
    (hsm : ∀ b, e.is_stalemate b = true → e.is_game_over b = true)
    (him : ∀ b, e.is_insufficient_material b = true → e.is_game_over b = true)
    (hdone : runMatchLoop e a1 a2 tl fuel (initState e) = .done s (some win)) :
    e.is_game_over s.board = false ∧
    win = (if e.turn s.board then "black" else "white") ∧
    ∃ r, run_match e a1 a2 tl fuel = .result r ∧ r.winner = win := by
  rcases runMatchLoop_done_cases e a1 a2 tl fuel (initState e) s (some win) hdone
    with ⟨hnone, -⟩ | ⟨hsome, hov⟩
  · cases hnone
  · injection hsome with hwin
    have hcmf : e.is_checkmate s.board = false := by
      cases hx : e.is_checkmate s.board with
      | false => rfl
      | true => rw [hcm s.board hx] at hov; exact Bool.noConfusion hov
    have hsmf : e.is_stalemate s.board = false := by
      cases hx : e.is_stalemate s.board with
      | false => rfl
      | true => rw [hsm s.board hx] at hov; exact Bool.noConfusion hov
    have himf : e.is_insufficient_material s.board = false := by
      cases hx : e.is_insufficient_material s.board with
      | false => rfl
      | true => rw [him s.board hx] at hov; exact Bool.noConfusion hov
    have hcl : classifyWinner e s.board (some win) = some win := by
      simp [classifyWinner, hcmf, hsmf, himf]
    refine ⟨hov, hwin, GameResult.mk a1.name a2.name win s.moves
      s.time_white s.time_black (e.fen s.board), ?_, rfl⟩
    simp only [run_match, hdone, hcl]

/-- C6 (witness): concrete forfeit — black raises on a non-terminal position,
white wins, classification changes nothing. -/
theorem c6_witness :
    openBlackEngine.is_game_over (initState openBlackEngine).board = false ∧
    "white" = (if openBlackEngine.turn (initState openBlackEngine).board
      then "black" else "white") ∧
    ∃ r, run_match openBlackEngine agA agB 1 1 = MatchOutcome.result r ∧
      r.winner = "white" :=
  c6_forfeit_winner openBlackEngine agA agB 1 1 (initState openBlackEngine)
    "white" (fun _ h => Bool.noConfusion h) (fun _ h => Bool.noConfusion h)
    (fun _ h => Bool.noConfusion h) rfl

/-- C7: for every agent appearing in the result log (and a log whose winner
fields are all legal values), the aggregator's win rate equals
(wins + draws/2) / games_played with the counts summed over both colors, lies
in [0, 1], and equals 1 exactly when the agent won every one of its games —
wins = games played, zero draws and zero losses. -/
theorem c7_win_rate (rs : List GameResult) (ai_name : String)
    (hval : ∀ r ∈ rs, r.winner = "white" ∨ r.winner = "black" ∨ r.winner = "draw")
    (happ : ∃ r ∈ rs, r.white_ai = ai_name ∨ r.black_ai = ai_name) :
    win_rate rs ai_name =
      ((total_wins rs ai_name : ℚ) + (1 / 2) * (total_draws rs ai_name : ℚ)) /
        (total_games rs ai_name : ℚ) ∧
    0 ≤ win_rate rs ai_name ∧ win_rate rs ai_name ≤ 1 ∧
    (win_rate rs ai_name = 1 ↔
      total_wins rs ai_name = total_games rs ai_name ∧
      total_draws rs ai_name = 0 ∧ total_losses rs ai_name = 0) := by
  have hG := total_games_pos rs ai_name happ
  have hpart := total_partition rs ai_name hval
  have hrate : win_rate rs ai_name =
      ((total_wins rs ai_name : ℚ) + (1 / 2) * (total_draws rs ai_name : ℚ)) /
        (total_games rs ai_name : ℚ) := by
    rw [win_rate, if_pos hG]
  have hGQ : (0 : ℚ) < (total_games rs ai_name : ℚ) := by exact_mod_cast hG
  have hGne : (total_games rs ai_name : ℚ) ≠ 0 := ne_of_gt hGQ
  have hsum : (total_wins rs ai_name : ℚ) + (total_losses rs ai_name : ℚ) +
      (total_draws rs ai_name : ℚ) = (total_games rs ai_name : ℚ) := by
    exact_mod_cast hpart
  have hLnn : (0 : ℚ) ≤ (total_losses rs ai_name : ℚ) := Nat.cast_nonneg _
  have hDnn : (0 : ℚ) ≤ (total_draws rs ai_name : ℚ) := Nat.cast_nonneg _
  have hWnn : (0 : ℚ) ≤ (total_wins rs ai_name : ℚ) := Nat.cast_nonneg _
  refine ⟨hrate, ?_, ?_, ?_⟩
  · rw [hrate]
    positivity
  · rw [hrate, div_le_one hGQ]
    linarith
  · rw [hrate, div_eq_one_iff_eq hGne]
    constructor
    · intro h
      have hD0 : (total_draws rs ai_name : ℚ) = 0 := by linarith
      have hL0 : (total_losses rs ai_name : ℚ) = 0 := by linarith
      have hDn : total_draws rs ai_name = 0 := by exact_mod_cast hD0
      have hLn : total_losses rs ai_name = 0 := by exact_mod_cast hL0
      exact ⟨by omega, hDn, hLn⟩
    · rintro ⟨hWG, hD0, hL0⟩
      rw [hWG, hD0]
      norm_num

/-- C7 (witness): a log with a single game won by "A" as white: win rate of
"A" is 1, with the iff's right side holding. -/
theorem c7_witness :
    win_rate [resW] "A" =
      ((total_wins [resW] "A" : ℚ) + (1 / 2) * (total_draws [resW] "A" : ℚ)) /
        (total_games [resW] "A" : ℚ) ∧
    0 ≤ win_rate [resW] "A" ∧ win_rate [resW] "A" ≤ 1 ∧
    (win_rate [resW] "A" = 1 ↔
      total_wins [resW] "A" = total_games [resW] "A" ∧
      total_draws [resW] "A" = 0 ∧ total_losses [resW] "A" = 0) :=
  c7_win_rate [resW] "A" (by decide) (by decide)

/-- C8: the loop nest of `run_tournament` enumerates games exactly in the
spec's deterministic order — pairs (i, j) with i from first to last index and
j from i+1 to last, and within each of the k repetitions of a pair the game
with the first agent as white immediately before the game with the second as
white — and a successful run's log lists, position by position, the result
`run_match` computes for the scheduled (white, black) assignment; since the
embedding of `run_match` is a function, the log position of every game is
determined. -/
theorem c8_enumeration_order (e : Engine β μ) (ais : List (Agent β μ))
    (games_per_pair : ℕ) (tl : ℚ) (fuel : ℕ) (log : List GameResult)
    (hrun : run_tournament e ais games_per_pair tl fuel [] = some log) :
    tournamentSchedule ais games_per_pair = spec_schedule ais games_per_pair ∧
    List.Forall₂ (fun p r => run_match e p.1 p.2 tl fuel = MatchOutcome.result r)
      (spec_schedule ais games_per_pair) log := by
  rw [run_tournament] at hrun
  have hf := runScheduled_forall₂ e tl fuel _ log hrun
  exact ⟨tournamentSchedule_eq_spec_schedule ais games_per_pair,
    tournamentSchedule_eq_spec_schedule ais games_per_pair ▸ hf⟩

/-- C8 (witness): the theorem applied to a concrete two-agent tournament:
the A-white game is logged first, the B-white game second. -/
theorem c8_witness :
    tournamentSchedule [agA, agB] 1 = spec_schedule [agA, agB] 1 ∧
    List.Forall₂
      (fun p r => run_match mateEngine p.1 p.2 1 1 = MatchOutcome.result r)
      (spec_schedule [agA, agB] 1) [resAB, resBA] :=
  c8_enumeration_order mateEngine [agA, agB] 1 1 1 [resAB, resBA] rfl

/-- C9: if the black agent's `choose_move` raises on every position it is
given, and a terminating run of the match loop ends on a position with black
to move that is not game over (i.e. black's first call was reached and
failed), then `run_match` returns normally — the error is absorbed — with a
`GameResult` whose winner is white and whose move count equals the number of
moves applied to the engine before the failing call (`0` when it was black's
very first move of the game). -/
theorem c9_black_error_forfeit (e : Engine β μ) (a1 a2 : Agent β μ) (tl : ℚ)
    (fuel : ℕ) (s : MatchState β) (w : Option String)
    (hB : ∀ b, a2.choose_move b = AgentOutcome.err)
    (hcm : ∀ b, e.is_checkmate b = true → e.is_game_over b = true)
    (hsm : ∀ b, e.is_stalemate b = true → e.is_game_over b = true)
    (him : ∀ b, e.is_insufficient_material b = true → e.is_game_over b = true)
    (hdone : runMatchLoop e a1 a2 tl fuel (initState e) = .done s w)
    (hturn : e.turn s.board = false)
    (hnotOver : e.is_game_over s.board = false) :
    ∃ r, run_match e a1 a2 tl fuel = MatchOutcome.result r ∧
      r.winner = "white" ∧
      ∃ ms : List μ, pushAll e e.init ms = some s.board ∧ r.moves = ms.length := by
  rcases runMatchLoop_done_cases e a1 a2 tl fuel (initState e) s w hdone
    with ⟨rfl, hov⟩ | ⟨rfl, hov⟩
  · rw [hov] at hnotOver
    exact Bool.noConfusion hnotOver
  · have hwin : opponentOfMover e s.board = "white" := by
      rw [opponentOfMover, hturn]
      rfl
    have hcmf : e.is_checkmate s.board = false := by
      cases hx : e.is_checkmate s.board with
      | false => rfl
      | true => rw [hcm s.board hx] at hov; exact Bool.noConfusion hov
    have hsmf : e.is_stalemate s.board = false := by
      cases hx : e.is_stalemate s.board with
      | false => rfl
      | true => rw [hsm s.board hx] at hov; exact Bool.noConfusion hov
    have himf : e.is_insufficient_material s.board = false := by
      cases hx : e.is_insufficient_material s.board with
      | false => rfl
      | true => rw [him s.board hx] at hov; exact Bool.noConfusion hov
    have hcl : classifyWinner e s.board (some (opponentOfMover e s.board)) =
        some "white" := by
      simp [classifyWinner, hcmf, hsmf, himf, hwin]
    obtain ⟨ms, h1, h2, -⟩ :=
      runMatchLoop_done_trace e a1 a2 tl fuel (initState e) s _ hdone
    refine ⟨GameResult.mk a1.name a2.name "white" s.moves
      s.time_white s.time_black (e.fen s.board), ?_, rfl, ms, h1, ?_⟩
    · simp only [run_match, hdone, hcl]
    · simpa [initState] using h2

/-- C9 (witness): black raises on its very first call (a position with black
to move, no prior moves): white wins with move count 0. -/
theorem c9_witness :
    ∃ r, run_match openBlackEngine agA agB 1 1 = MatchOutcome.result r ∧
      r.winner = "white" ∧
      ∃ ms : List Unit, pushAll openBlackEngine openBlackEngine.init ms =
        some (initState openBlackEngine).board ∧ r.moves = ms.length :=
  c9_black_error_forfeit openBlackEngine agA agB 1 1 (initState openBlackEngine)
    (some "white") (fun _ => rfl) (fun _ h => Bool.noConfusion h)
    (fun _ h => Bool.noConfusion h) (fun _ h => Bool.noConfusion h) rfl rfl rfl

/-- C10: the results list persists on the runner across tournament
invocations — a call of `run_tournament` starting from an accumulated results
list returns that list with the new games appended (never cleared), so the log
returned by a second call on the same runner still contains every game of the
earlier runs, in order, as a prefix. -/
theorem c10_results_accumulate (e : Engine β μ) (ais : List (Agent β μ))
    (games_per_pair : ℕ) (tl : ℚ) (fuel : ℕ) (prev log : List GameResult)
    (h : run_tournament e ais games_per_pair tl fuel prev = some log) :
    ∃ fresh, run_tournament e ais games_per_pair tl fuel [] = some fresh ∧
      log = prev ++ fresh := by
  rw [run_tournament, runScheduled_append] at h
  cases hg : runScheduled e tl fuel (tournamentSchedule ais games_per_pair) [] with
  | none => rw [hg] at h; cases h
  | some g =>
    rw [hg] at h
    injection h with h
    exact ⟨g, by rw [run_tournament]; exact hg, h.symm⟩

/-- C10 (witness): a second tournament run on a runner already holding one
result returns the old result followed by the new games. -/
theorem c10_witness :
    ∃ fresh, run_tournament mateEngine [agA, agB] 1 1 1 [] = some fresh ∧
      [resW, resAB, resBA] = [resW] ++ fresh :=
  c10_results_accumulate mateEngine [agA, agB] 1 1 1 [resW]
    [resW, resAB, resBA] rfl

end ChessExp
